import Mathlib

/-!
Verification development for `async-cron-scheduler` (pop-os).

The crate root `src/lib.rs` defines the `TimeZoneExt` trait and its two
implementations for `chrono::Local` and `chrono::Utc`, and declares the
modules `job` and `scheduler` whose sources are not present here; those
two modules (the `Job` type with `Job::cron`, and the scheduler service
loop with its command channel) are modelled from the specification, as
marked on each definition below.

Time is modelled as natural-number seconds.  The external `cron` crate
is a black box per the specification; its contract (a validated
six-field expression yielding an infinite, monotonically increasing
sequence of future timestamps) is realized concretely below.
-/

namespace AsyncCronScheduler

/-! ## Timezone capability (src/lib.rs) -/

/-- Model of `chrono::Local`, a unit struct. -/
inductive Local
  | mk
deriving DecidableEq

/-- Model of `chrono::Utc`, a unit struct. -/
inductive Utc
  | mk
deriving DecidableEq

/-- Model of the `TimeZoneExt` trait of src/lib.rs: the `timescale`
associated function constructs the default timezone struct.  (`now()` is
an effectful clock read and is not part of the pure model.) -/
class TimeZoneExt (τ : Type) where
  timescale : τ

/-- `impl TimeZoneExt for chrono::Local` (src/lib.rs line 78): `timescale`
returns `Self`, the unit value. -/
instance : TimeZoneExt Local := ⟨Local.mk⟩

/-- `impl TimeZoneExt for chrono::Utc` (src/lib.rs line 87): `timescale`
returns `Self`, the unit value. -/
instance : TimeZoneExt Utc := ⟨Utc.mk⟩

/-! ## Scheduler service state (modelled from the spec) -/

/-- Modelled from the spec: `src/job.rs` is missing; a job entry in the
service's job set holds the cached next-due timestamp and the remaining
fire-time sequence (a list models the lazy sequence; an exhausted job is
one whose remaining sequence is empty after its cached time fires). -/
structure JobEntry where
  next : Nat
  rest : List Nat
deriving DecidableEq

/-- Modelled from the spec: `src/scheduler.rs` is missing; the scheduler
service state is the exclusively-owned job set (an association list from
JobId to job entry, in insertion order) together with the monotonically
increasing JobId counter used to issue fresh identifiers. -/
structure SchedState where
  jobs : List (Nat × JobEntry)
  nextId : Nat
deriving DecidableEq

/-- Modelled from the spec: `launch` starts the service with an empty job
set and the identifier counter at its initial value. -/
def initState : SchedState := ⟨[], 0⟩

/-- Minimum of a list of naturals, `none` on the empty list. -/
def listMin : List Nat → Option Nat
  | [] => none
  | x :: xs =>
    match listMin xs with
    | none => some x
    | some m => some (min x m)

/-- Modelled from the spec (step 1 of the service loop): the wait deadline
is the minimum cached next-due time over all jobs in the set, or `none`
("indefinite", the timer branch never resolves) when the set is empty. -/
def deadline (s : SchedState) : Option Nat :=
  listMin (s.jobs.map (fun p => p.2.next))

/-- Modelled from the spec: a management command carried by the command
channel, `Insert(Job, Callback)` or `Remove(JobId)`.  The callback is
opaque; its invocation is observed through the fired-JobId output of the
service. -/
inductive Command
  | insert (job : JobEntry)
  | remove (id : Nat)
deriving DecidableEq

/-- Modelled from the spec: the reply sent back to a handle — the freshly
issued JobId for `Insert`, an unconditional acknowledgement for
`Remove`. -/
inductive Reply
  | inserted (id : Nat)
  | removed
deriving DecidableEq

/-- Modelled from the spec: what the service observes when its step-2 race
resolves — a command arrived, the timer elapsed with current time `now`,
or the command channel is closed with no command pending. -/
inductive Event
  | command (c : Command)
  | timer (now : Nat)
  | closed
deriving DecidableEq

/-- Modelled from the spec (step 3, Insert): construct the job entry under
a freshly issued JobId — the current counter value — increment the
counter, and reply with the issued id. -/
def applyInsert (s : SchedState) (j : JobEntry) : SchedState × Nat :=
  (⟨s.jobs ++ [(s.nextId, j)], s.nextId + 1⟩, s.nextId)

/-- Modelled from the spec (step 3, Remove): delete the entry if present;
other entries are untouched and the reply is success regardless. -/
def applyRemove (s : SchedState) (id : Nat) : SchedState :=
  ⟨s.jobs.filter (fun p => p.1 != id), s.nextId⟩

/-- Firing order key: due jobs fire in increasing next-due order, ties
broken by JobId ascending. -/
def jobKeyLe (a b : Nat × JobEntry) : Prop :=
  a.2.next < b.2.next ∨ (a.2.next = b.2.next ∧ a.1 ≤ b.1)

instance : DecidableRel jobKeyLe := fun a b => by
  unfold jobKeyLe; infer_instance

instance : IsTotal (Nat × JobEntry) jobKeyLe :=
  ⟨fun a b => by unfold jobKeyLe; omega⟩

instance : IsTrans (Nat × JobEntry) jobKeyLe :=
  ⟨fun a b c hab hbc => by unfold jobKeyLe at *; omega⟩

/-- Modelled from the spec (step 4): the jobs collected when the timer
elapses at `now` — every job whose cached next-due time is ≤ `now`. -/
def dueList (s : SchedState) (now : Nat) : List (Nat × JobEntry) :=
  s.jobs.filter (fun p => p.2.next ≤ now)

/-- Modelled from the spec (step 4): the due jobs ordered by increasing
next-due time, ties broken by JobId ascending; callbacks are invoked in
this order. -/
def fireOrder (s : SchedState) (now : Nat) : List (Nat × JobEntry) :=
  List.insertionSort jobKeyLe (dueList s now)

/-- Modelled from the spec (step 4): after firing, each due job is
advanced — its cached next-due time becomes the next element of its
sequence — and a job whose sequence is exhausted is removed from the
set.  Jobs not due are untouched. -/
def advanceJobs (s : SchedState) (now : Nat) : SchedState :=
  ⟨s.jobs.filterMap (fun p =>
      if p.2.next ≤ now then
        match p.2.rest with
        | [] => none
        | n :: r => some (p.1, ⟨n, r⟩)
      else some p),
   s.nextId⟩

/-- Modelled from the spec (step 4): the state after a timer wake at
`now`, paired with the JobIds whose callbacks were invoked, in invocation
order. -/
def fireDue (s : SchedState) (now : Nat) : SchedState × List Nat :=
  (advanceJobs s now, (fireOrder s now).map (fun p => p.1))

/-- Modelled from the spec: outcome of one iteration of the service loop —
either the loop continues with a new state, the JobIds fired in this
iteration, and an optional reply sent to a handle, or the service
terminates. -/
inductive StepOut
  | running (s : SchedState) (fired : List Nat) (reply : Option Reply)
  | halted
deriving DecidableEq

/-- Modelled from the spec (steps 2–5 of the service loop): act on
whichever signal won the race.  A command is applied synchronously; a
timer wake fires the due jobs; a closed channel with no pending command
terminates the loop. -/
def step (s : SchedState) : Event → StepOut
  | .command (.insert j) =>
    let r := applyInsert s j
    .running r.1 [] (some (.inserted r.2))
  | .command (.remove id) =>
    .running (applyRemove s id) [] (some .removed)
  | .timer now =>
    let r := fireDue s now
    .running r.1 r.2 none
  | .closed => .halted

/-- Accumulated observable outcome of driving the service over a sequence
of events: final state, all fired JobIds in order, all replies in order,
and whether the service terminated. -/
structure RunResult where
  state : SchedState
  fired : List Nat
  replies : List Reply
  halted : Bool
deriving DecidableEq

/-- Modelled from the spec: the service loop, driven by a sequence of
observed events.  Once the channel closes the loop terminates and the
remaining events are never observed. -/
def run (s : SchedState) : List Event → RunResult
  | [] => ⟨s, [], [], false⟩
  | e :: es =>
    match step s e with
    | .halted => ⟨s, [], [], true⟩
    | .running s' f r =>
      ⟨(run s' es).state, f ++ (run s' es).fired,
       (match r with | some x => [x] | none => []) ++ (run s' es).replies,
       (run s' es).halted⟩

/-- The JobIds assigned by Insert replies, in reply order. -/
def insertedIds (rs : List Reply) : List Nat :=
  rs.filterMap (fun r =>
    match r with
    | .inserted i => some i
    | .removed => none)

/-- The JobIds present as keys of the job set. -/
def keysOf (s : SchedState) : List Nat :=
  s.jobs.map (fun p => p.1)

/-! ## Cron expressions (modelled from the spec)

The `cron` crate is an external black box per the specification.  Its
syntax is the standard six-field form (seconds 0–59, minutes 0–59,
hours 0–23, day-of-month 1–31, month 1–12, day-of-week 0–6), each field
a comma list of `*`, a value, a range `a-b`, or a stepped form
`*/s`, `a/s`, `a-b/s`.  Its schedule contract — an infinite,
monotonically increasing sequence of future timestamps — is realized on
the daily pattern given by the seconds/minutes/hours fields (the date
fields are parsed and validated; timestamps are seconds since an
epoch). -/

/-- Splitting helper: accumulate the current token (reversed). -/
def splitOnCharAux (c : Char) : List Char → List Char → List (List Char)
  | [], acc => [acc.reverse]
  | x :: xs, acc =>
    if x = c then acc.reverse :: splitOnCharAux c xs []
    else splitOnCharAux c xs (x :: acc)

/-- Split a character list on a separator character. -/
def splitOnChar (c : Char) (cs : List Char) : List (List Char) :=
  splitOnCharAux c cs []

/-- Parse a non-empty all-digit token to a natural number. -/
def parseNatChars (cs : List Char) : Option Nat :=
  if cs.isEmpty then none
  else
    cs.foldl (fun acc c =>
      match acc with
      | none => none
      | some n => if c.isDigit then some (n * 10 + (c.toNat - 48)) else none)
      (some 0)

/-- The values `a, a+s, …` up to `b` (empty when `a > b`; `s ≥ 1`). -/
def stepRange (a b s : Nat) : List Nat :=
  if a ≤ b then List.range' a ((b - a) / s + 1) s else []

/-- Modelled from the spec: parse one atom of a cron field with value
range `lo`–`hi`: `*`, a value, `a-b`, or those with a step `/s`
(a bare value with a step runs from that value to `hi`).  Out-of-range
values, reversed ranges, zero steps, and malformed tokens are invalid. -/
def parseAtom (lo hi : Nat) (cs : List Char) : Option (List Nat) :=
  match splitOnChar '/' cs with
  | [body] =>
    if body = ['*'] then some (stepRange lo hi 1)
    else
      match splitOnChar '-' body with
      | [a] =>
        (parseNatChars a).bind (fun n =>
          if lo ≤ n && n ≤ hi then some [n] else none)
      | [a, b] =>
        (parseNatChars a).bind (fun na =>
          (parseNatChars b).bind (fun nb =>
            if lo ≤ na && na ≤ nb && nb ≤ hi then some (stepRange na nb 1)
            else none))
      | _ => none
  | [body, stepCs] =>
    (parseNatChars stepCs).bind (fun s =>
      if s = 0 then none
      else if body = ['*'] then some (stepRange lo hi s)
      else
        match splitOnChar '-' body with
        | [a] =>
          (parseNatChars a).bind (fun n =>
            if lo ≤ n && n ≤ hi then some (stepRange n hi s) else none)
        | [a, b] =>
          (parseNatChars a).bind (fun na =>
            (parseNatChars b).bind (fun nb =>
              if lo ≤ na && na ≤ nb && nb ≤ hi then some (stepRange na nb s)
              else none))
        | _ => none)
  | _ => none

/-- Parse a list of atoms; the result is the union (concatenation) of
their value lists, and any invalid atom invalidates the field. -/
def parseAtoms (lo hi : Nat) : List (List Char) → Option (List Nat)
  | [] => some []
  | a :: as =>
    match parseAtom lo hi a, parseAtoms lo hi as with
    | some l, some ls => some (l ++ ls)
    | _, _ => none

/-- Modelled from the spec: a cron field is a comma list of atoms; the
field's value set is their union. -/
def parseField (lo hi : Nat) (cs : List Char) : Option (List Nat) :=
  parseAtoms lo hi (splitOnChar ',' cs)

/-- A validated cron expression: the allowed values of each of the six
fields. -/
structure CronExpr where
  seconds : List Nat
  minutes : List Nat
  hours : List Nat
  daysOfMonth : List Nat
  months : List Nat
  daysOfWeek : List Nat
deriving DecidableEq

/-- The whitespace-separated fields of an expression. -/
def cronFields (cs : List Char) : List (List Char) :=
  (splitOnChar ' ' cs).filter (fun f => !f.isEmpty)

/-- Modelled from the spec: parse and validate a six-field cron
expression; wrong field count or any invalid field is a parse error. -/
def parseCron (cs : List Char) : Option CronExpr :=
  match cronFields cs with
  | [f1, f2, f3, f4, f5, f6] =>
    match parseField 0 59 f1, parseField 0 59 f2, parseField 0 23 f3,
          parseField 1 31 f4, parseField 1 12 f5, parseField 0 6 f6 with
    | some se, some mi, some ho, some dm, some mo, some dw =>
      some ⟨se, mi, ho, dm, mo, dw⟩
    | _, _, _, _, _, _ => none
  | _ => none

/-- The times of day (seconds past midnight) at which an expression
fires. -/
def timesOfDay (e : CronExpr) : List Nat :=
  e.hours.flatMap (fun h =>
    e.minutes.flatMap (fun m =>
      e.seconds.map (fun s => h * 3600 + m * 60 + s)))

/-- The absolute fire times of an expression on day `d`. -/
def fireTimesOnDay (e : CronExpr) (d : Nat) : List Nat :=
  (timesOfDay e).map (fun r => d * 86400 + r)

/-- The candidate fire times strictly after `t`, drawn from `t`'s day and
the next day (the next fire time always falls in this window). -/
def fireCandidates (e : CronExpr) (t : Nat) : List Nat :=
  ((fireTimesOnDay e (t / 86400)) ++ (fireTimesOnDay e (t / 86400 + 1))).filter
    (fun u => t < u)

/-- Modelled from the spec: the schedule's next fire time strictly after
`t` — the least candidate. -/
def nextFire (e : CronExpr) (t : Nat) : Option Nat :=
  listMin (fireCandidates e t)

/-- A timestamp matches an expression when its second, minute and hour
components are allowed (the realized semantics of the black-box
schedule). -/
def timeMatches (e : CronExpr) (u : Nat) : Prop :=
  u % 60 ∈ e.seconds ∧ u / 60 % 60 ∈ e.minutes ∧ u / 3600 % 24 ∈ e.hours

instance (e : CronExpr) (u : Nat) : Decidable (timeMatches e u) := by
  unfold timeMatches; infer_instance

/-- Model of `ParseError` (the error the `cron` crate returns on an
invalid expression). -/
inductive ParseError
  | invalidExpr
deriving DecidableEq

/-- Modelled from the spec: the `Job` type of the missing `src/job.rs` —
a validated schedule together with the cached next-due timestamp,
computed at construction as the first fire time strictly after "now". -/
structure Job where
  expr : CronExpr
  next : Option Nat
deriving DecidableEq

/-- Modelled from the spec: `Job::cron` parses and validates the
expression, failing with a `ParseError` on invalid syntax (no job is
produced); on success the job caches the first fire time strictly after
the construction time `now`. -/
def Job.cron (s : String) (now : Nat) : Except ParseError Job :=
  match parseCron s.data with
  | none => .error .invalidExpr
  | some e => .ok ⟨e, nextFire e now⟩

/-! ## Lemmas about the list minimum -/

theorem listMin_eq_none {l : List Nat} : listMin l = none ↔ l = [] := by
  cases l with
  | nil => simp [listMin]
  | cons x xs =>
    simp only [listMin]
    cases listMin xs <;> simp

theorem listMin_mem {l : List Nat} : ∀ {m : Nat}, listMin l = some m → m ∈ l := by
  induction l with
  | nil => intro m h; simp [listMin] at h
  | cons x xs ih =>
    intro m h
    simp only [listMin] at h
    cases hx : listMin xs with
    | none =>
      rw [hx] at h
      simp only [Option.some.injEq] at h
      simp [h]
    | some m' =>
      rw [hx] at h
      simp only [Option.some.injEq] at h
      rcases le_total x m' with hxm | hxm
      · rw [min_eq_left hxm] at h
        exact h ▸ List.mem_cons_self x xs
      · rw [min_eq_right hxm] at h
        exact List.mem_cons_of_mem x (h ▸ ih hx)

theorem listMin_le {l : List Nat} : ∀ {m : Nat}, listMin l = some m → ∀ x ∈ l, m ≤ x := by
  induction l with
  | nil => simp
  | cons x xs ih =>
    intro m h y hy
    simp only [listMin] at h
    cases hx : listMin xs with
    | none =>
      rw [hx] at h
      simp only [Option.some.injEq] at h
      rcases List.mem_cons.mp hy with hy | hy
      · omega
      · rw [listMin_eq_none.mp hx] at hy; simp at hy
    | some m' =>
      rw [hx] at h
      simp only [Option.some.injEq] at h
      have hm1 : min x m' ≤ x := min_le_left x m'
      have hm2 : min x m' ≤ m' := min_le_right x m'
      rcases List.mem_cons.mp hy with hy | hy
      · subst hy; omega
      · have := ih hx y hy
        omega

theorem listMin_isSome {l : List Nat} (h : l ≠ []) :
    ∃ m, listMin l = some m := by
  cases hx : listMin l with
  | none => exact absurd (listMin_eq_none.mp hx) h
  | some m => exact ⟨m, rfl⟩

theorem listMin_append (l₁ l₂ : List Nat) :
    listMin (l₁ ++ l₂) =
      match listMin l₁, listMin l₂ with
      | none, m => m
      | some a, none => some a
      | some a, some b => some (min a b) := by
  induction l₁ with
  | nil =>
    rw [List.nil_append]
    cases listMin l₂ <;> simp [listMin]
  | cons x xs ih =>
    simp only [List.cons_append, listMin, List.append_eq]
    rw [ih]
    cases listMin xs <;> cases listMin l₂ <;> simp [Nat.min_assoc]

/-- Removing key `id` from an association list leaves the lookup of any
other key unchanged. -/
theorem lookup_filter_ne {id idx : Nat} (l : List (Nat × JobEntry))
    (h : idx ≠ id) :
    List.lookup idx (l.filter (fun p => p.1 != id)) = List.lookup idx l := by
  induction l with
  | nil => rfl
  | cons p ps ih =>
    rcases p with ⟨k, v⟩
    by_cases hk : k = id
    · subst hk
      have h2 : (idx == k) = false := beq_eq_false_iff_ne.mpr h
      simp only [List.filter_cons]
      rw [if_neg (by simp)]
      rw [ih, List.lookup_cons, h2]
    · simp only [List.filter_cons]
      rw [if_pos (by simp [hk])]
      rw [List.lookup_cons, List.lookup_cons]
      cases hik : (idx == k) with
      | true => rfl
      | false => exact ih

/-- Membership in the fire order is membership in the due list. -/
theorem mem_fireOrder {s : SchedState} {now : Nat} {p : Nat × JobEntry} :
    p ∈ fireOrder s now ↔ p ∈ s.jobs ∧ p.2.next ≤ now := by
  rw [fireOrder, (List.perm_insertionSort jobKeyLe (dueList s now)).mem_iff,
    dueList, List.mem_filter]
  simp

/-- Inserting issues the current counter value as the new key. -/
theorem keysOf_applyInsert (s : SchedState) (j : JobEntry) :
    keysOf (applyInsert s j).1 = keysOf s ++ [s.nextId] := by
  simp [keysOf, applyInsert]

/-- Removal only deletes keys. -/
theorem mem_keysOf_applyRemove {s : SchedState} {id k : Nat}
    (h : k ∈ keysOf (applyRemove s id)) : k ∈ keysOf s := by
  simp only [keysOf, applyRemove] at h
  rcases List.mem_map.mp h with ⟨p, hp, rfl⟩
  exact List.mem_map_of_mem _ (List.mem_of_mem_filter hp)

/-- Advancing after a timer wake never adds keys. -/
theorem mem_keysOf_advanceJobs {s : SchedState} {now k : Nat}
    (h : k ∈ keysOf (advanceJobs s now)) : k ∈ keysOf s := by
  simp only [keysOf, advanceJobs] at h
  rcases List.mem_map.mp h with ⟨p, hp, rfl⟩
  rcases List.mem_filterMap.mp hp with ⟨q, hq, hfq⟩
  have hkey : p.1 = q.1 := by
    split at hfq
    · split at hfq
      · exact absurd hfq (by simp)
      · cases Option.some.inj hfq
        rfl
    · cases Option.some.inj hfq
      rfl
  rw [hkey]
  exact List.mem_map_of_mem _ hq

/-- Every fired JobId is a key of the pre-wake job set. -/
theorem mem_fired_keysOf {s : SchedState} {now k : Nat}
    (h : k ∈ (fireDue s now).2) : k ∈ keysOf s := by
  rcases List.mem_map.mp h with ⟨p, hp, rfl⟩
  exact List.mem_map_of_mem _ (mem_fireOrder.mp hp).1

/-- A JobId that is neither in the job set nor issuable (it is below the
counter) never appears among the fired ids of any subsequent run. -/
theorem run_never_fires (id : Nat) :
    ∀ (evs : List Event) (s : SchedState),
      id ∉ keysOf s → id < s.nextId → id ∉ (run s evs).fired := by
  intro evs
  induction evs with
  | nil =>
    intro s hk hn
    simp [run]
  | cons e es ih =>
    intro s hk hn
    cases e with
    | closed => simp [run, step]
    | command c =>
      cases c with
      | insert j =>
        simp only [run, step, List.nil_append]
        apply ih
        · rw [keysOf_applyInsert]
          intro hmem
          rcases List.mem_append.mp hmem with hmem | hmem
          · exact hk hmem
          · simp at hmem
            omega
        · show id < s.nextId + 1
          omega
      | remove rid =>
        simp only [run, step, List.nil_append]
        exact ih _ (fun hmem => hk (mem_keysOf_applyRemove hmem)) hn
    | timer now =>
      simp only [run, step]
      intro hmem
      rcases List.mem_append.mp hmem with hmem | hmem
      · exact hk (mem_fired_keysOf hmem)
      · exact ih _ (fun hm => hk (mem_keysOf_advanceJobs hm)) hn hmem

/-- `insertedIds` skips a removal acknowledgement. -/
theorem insertedIds_cons_removed (rs : List Reply) :
    insertedIds (Reply.removed :: rs) = insertedIds rs := by
  simp [insertedIds]

/-- `insertedIds` keeps an issued id. -/
theorem insertedIds_cons_inserted (n : Nat) (rs : List Reply) :
    insertedIds (Reply.inserted n :: rs) = n :: insertedIds rs := by
  simp [insertedIds]

/-- Every JobId issued during a run is at least the starting counter
value. -/
theorem run_insertedIds_ge :
    ∀ (evs : List Event) (s : SchedState) {i : Nat},
      i ∈ insertedIds (run s evs).replies → s.nextId ≤ i := by
  intro evs
  induction evs with
  | nil =>
    intro s i h
    simp [run, insertedIds] at h
  | cons e es ih =>
    intro s i h
    cases e with
    | closed => simp [run, step, insertedIds] at h
    | timer now =>
      simp only [run, step, List.nil_append] at h
      exact ih (fireDue s now).1 h
    | command c =>
      cases c with
      | insert j =>
        simp only [run, step, List.cons_append, List.nil_append,
          insertedIds_cons_inserted, List.mem_cons] at h
        have h2 : (applyInsert s j).1.nextId = s.nextId + 1 := rfl
        have h3 : (applyInsert s j).2 = s.nextId := rfl
        rcases h with h | h
        · omega
        · have := ih (applyInsert s j).1 h
          omega
      | remove rid =>
        simp only [run, step, List.cons_append, List.nil_append,
          insertedIds_cons_removed] at h
        exact ih (applyRemove s rid) h

/-- The JobIds issued during a run are strictly increasing. -/
theorem run_insertedIds_pairwise :
    ∀ (evs : List Event) (s : SchedState),
      (insertedIds (run s evs).replies).Pairwise (· < ·) := by
  intro evs
  induction evs with
  | nil =>
    intro s
    simp [run, insertedIds]
  | cons e es ih =>
    intro s
    cases e with
    | closed => simp [run, step, insertedIds]
    | timer now =>
      simp only [run, step, List.nil_append]
      exact ih _
    | command c =>
      cases c with
      | insert j =>
        simp only [run, step, List.cons_append, List.nil_append,
          insertedIds_cons_inserted]
        refine List.Pairwise.cons ?_ (ih (applyInsert s j).1)
        intro y hy
        have h1 := run_insertedIds_ge es (applyInsert s j).1 hy
        have h2 : (applyInsert s j).1.nextId = s.nextId + 1 := rfl
        have h3 : (applyInsert s j).2 = s.nextId := rfl
        omega
      | remove rid =>
        simp only [run, step, List.cons_append, List.nil_append,
          insertedIds_cons_removed]
        exact ih _

/-- Every key of the final job set is an initial key or an id issued by
an Insert of this run. -/
theorem run_keys_from_inserts :
    ∀ (evs : List Event) (s : SchedState) {k : Nat},
      k ∈ keysOf (run s evs).state →
      k ∈ keysOf s ∨ k ∈ insertedIds (run s evs).replies := by
  intro evs
  induction evs with
  | nil =>
    intro s k h
    exact Or.inl h
  | cons e es ih =>
    intro s k h
    cases e with
    | closed => exact Or.inl h
    | timer now =>
      simp only [run, step, List.nil_append] at h ⊢
      rcases ih _ h with h | h
      · exact Or.inl (mem_keysOf_advanceJobs h)
      · exact Or.inr h
    | command c =>
      cases c with
      | insert j =>
        simp only [run, step, List.cons_append, List.nil_append,
          insertedIds_cons_inserted] at h ⊢
        rcases ih _ h with h | h
        · rw [keysOf_applyInsert] at h
          rcases List.mem_append.mp h with h | h
          · exact Or.inl h
          · simp at h
            exact Or.inr (List.mem_cons.mpr (Or.inl h))
        · exact Or.inr (List.mem_cons.mpr (Or.inr h))
      | remove rid =>
        simp only [run, step, List.cons_append, List.nil_append,
          insertedIds_cons_removed] at h ⊢
        rcases ih _ h with h | h
        · exact Or.inl (mem_keysOf_applyRemove h)
        · exact Or.inr h

/-! ## Lemmas for the cron model -/

/-- A step range with a reachable upper bound is non-empty. -/
theorem stepRange_ne_nil {a b s : Nat} (h : a ≤ b) : stepRange a b s ≠ [] := by
  simp only [stepRange, if_pos h, ne_eq, List.range'_eq_nil]
  exact Nat.succ_ne_zero _

/-- Members of a step range lie between its bounds. -/
theorem stepRange_bounds {a b s x : Nat} (_hs : 1 ≤ s)
    (hx : x ∈ stepRange a b s) : a ≤ x ∧ x ≤ b := by
  unfold stepRange at hx
  by_cases hab : a ≤ b
  · rw [if_pos hab] at hx
    rcases List.mem_range'.mp hx with ⟨i, hi, rfl⟩
    have h1 : i ≤ (b - a) / s := by omega
    have h2 : s * i ≤ s * ((b - a) / s) := Nat.mul_le_mul_left s h1
    have h3 : (b - a) / s * s ≤ b - a := Nat.div_mul_le_self (b - a) s
    have h4 : s * ((b - a) / s) = (b - a) / s * s := Nat.mul_comm _ _
    omega
  · rw [if_neg hab] at hx
    simp at hx

/-- A successfully parsed atom is a non-empty list of in-range values. -/
theorem parseAtom_spec {lo hi : Nat} {cs : List Char} {l : List Nat}
    (h : parseAtom lo hi cs = some l) (hlohi : lo ≤ hi) :
    l ≠ [] ∧ ∀ x ∈ l, lo ≤ x ∧ x ≤ hi := by
  unfold parseAtom at h
  split at h
  · split at h
    · cases Option.some.inj h
      exact ⟨stepRange_ne_nil hlohi, fun x hx => stepRange_bounds (by omega) hx⟩
    · split at h
      · rcases Option.bind_eq_some.mp h with ⟨n, hn, h2⟩
        split at h2
        · cases Option.some.inj h2
          rename_i hcond
          simp only [Bool.and_eq_true, decide_eq_true_eq] at hcond
          refine ⟨by simp, ?_⟩
          intro x hx
          simp at hx
          omega
        · simp at h2
      · rcases Option.bind_eq_some.mp h with ⟨na, hna, h2⟩
        rcases Option.bind_eq_some.mp h2 with ⟨nb, hnb, h3⟩
        split at h3
        · cases Option.some.inj h3
          rename_i hcond
          simp only [Bool.and_eq_true, decide_eq_true_eq] at hcond
          refine ⟨stepRange_ne_nil (by omega), ?_⟩
          intro x hx
          have := stepRange_bounds (by omega) hx
          omega
        · simp at h3
      · simp at h
  · rcases Option.bind_eq_some.mp h with ⟨st, hst, h2⟩
    split at h2
    · simp at h2
    · split at h2
      · cases Option.some.inj h2
        rename_i hstz _
        exact ⟨stepRange_ne_nil hlohi,
          fun x hx => stepRange_bounds (by omega) hx⟩
      · split at h2
        · rcases Option.bind_eq_some.mp h2 with ⟨n, hn, h3⟩
          split at h3
          · cases Option.some.inj h3
            rename_i hstz _ hcond
            simp only [Bool.and_eq_true, decide_eq_true_eq] at hcond
            refine ⟨stepRange_ne_nil (by omega), ?_⟩
            intro x hx
            have := stepRange_bounds (by omega) hx
            omega
          · simp at h3
        · rcases Option.bind_eq_some.mp h2 with ⟨na, hna, h3⟩
          rcases Option.bind_eq_some.mp h3 with ⟨nb, hnb, h4⟩
          split at h4
          · cases Option.some.inj h4
            rename_i hstz _ hcond
            simp only [Bool.and_eq_true, decide_eq_true_eq] at hcond
            refine ⟨stepRange_ne_nil (by omega), ?_⟩
            intro x hx
            have := stepRange_bounds (by omega) hx
            omega
          · simp at h4
        · simp at h2
  · simp at h

/-- A successfully parsed atom list yields in-range values, non-empty
when there is at least one atom. -/
theorem parseAtoms_spec {lo hi : Nat} {atoms : List (List Char)}
    {l : List Nat} (h : parseAtoms lo hi atoms = some l) (hlohi : lo ≤ hi) :
    (∀ x ∈ l, lo ≤ x ∧ x ≤ hi) ∧ (atoms ≠ [] → l ≠ []) := by
  induction atoms generalizing l with
  | nil =>
    cases Option.some.inj h
    exact ⟨by simp, by simp⟩
  | cons a as ih =>
    simp only [parseAtoms] at h
    split at h
    · cases Option.some.inj h
      rename_i l₁ ls ha has
      obtain ⟨hne₁, hb₁⟩ := parseAtom_spec ha hlohi
      obtain ⟨hbs, _⟩ := ih has
      refine ⟨?_, fun _ => ?_⟩
      · intro x hx
        rcases List.mem_append.mp hx with hx | hx
        · exact hb₁ x hx
        · exact hbs x hx
      · simp [hne₁]
    · exact absurd h (by simp)

/-- Splitting never produces an empty token list. -/
theorem splitOnCharAux_ne_nil (c : Char) :
    ∀ (cs acc : List Char), splitOnCharAux c cs acc ≠ [] := by
  intro cs
  induction cs with
  | nil => intro acc; simp [splitOnCharAux]
  | cons x xs ih =>
    intro acc
    simp only [splitOnCharAux]
    split
    · simp
    · exact ih _

/-- A successfully parsed field is a non-empty list of in-range
values. -/
theorem parseField_spec {lo hi : Nat} {cs : List Char} {l : List Nat}
    (h : parseField lo hi cs = some l) (hlohi : lo ≤ hi) :
    l ≠ [] ∧ ∀ x ∈ l, lo ≤ x ∧ x ≤ hi := by
  obtain ⟨hb, hne⟩ := parseAtoms_spec h hlohi
  exact ⟨hne (splitOnCharAux_ne_nil ',' cs []), hb⟩

/-- A successfully parsed expression has non-empty, in-range seconds,
minutes and hours fields. -/
theorem parseCron_spec {cs : List Char} {e : CronExpr}
    (h : parseCron cs = some e) :
    (e.seconds ≠ [] ∧ ∀ x ∈ e.seconds, x ≤ 59) ∧
    (e.minutes ≠ [] ∧ ∀ x ∈ e.minutes, x ≤ 59) ∧
    (e.hours ≠ [] ∧ ∀ x ∈ e.hours, x ≤ 23) := by
  unfold parseCron at h
  split at h
  · split at h
    · cases Option.some.inj h
      rename_i hf1 hf2 hf3 hf4 hf5 hf6
      obtain ⟨hne1, hb1⟩ := parseField_spec hf1 (by omega)
      obtain ⟨hne2, hb2⟩ := parseField_spec hf2 (by omega)
      obtain ⟨hne3, hb3⟩ := parseField_spec hf3 (by omega)
      exact ⟨⟨hne1, fun x hx => (hb1 x hx).2⟩,
        ⟨hne2, fun x hx => (hb2 x hx).2⟩,
        ⟨hne3, fun x hx => (hb3 x hx).2⟩⟩
    · simp at h
  · simp at h

/-! ## Claim theorems for the service loop basics -/

/-- C2: on a timer wake at `now` the service fires exactly the jobs whose
cached next-due time is ≤ `now`, their callbacks are invoked in
increasing next-due order with ties broken by JobId ascending (given the
job-set keys are distinct), and the firing is deterministic — equal
state and wake time yield the identical fired sequence. -/
theorem claim_C2_fire_order (s : SchedState) (now : Nat) :
    (∀ id, id ∈ (fireDue s now).2 ↔
      ∃ e, (id, e) ∈ s.jobs ∧ e.next ≤ now) ∧
    ((keysOf s).Nodup →
      (fireOrder s now).Pairwise (fun a b =>
        a.2.next < b.2.next ∨ (a.2.next = b.2.next ∧ a.1 < b.1))) ∧
    (∀ s' now', s = s' → now = now' → fireDue s now = fireDue s' now') := by
  refine ⟨?_, ?_, fun s' now' hs hn => hs ▸ hn ▸ rfl⟩
  · intro id
    constructor
    · intro hid
      rcases List.mem_map.mp hid with ⟨p, hp, rfl⟩
      rcases mem_fireOrder.mp hp with ⟨hmem, hle⟩
      exact ⟨p.2, hmem, hle⟩
    · rintro ⟨e, he, hle⟩
      exact List.mem_map.mpr ⟨(id, e), mem_fireOrder.mpr ⟨he, hle⟩, rfl⟩
  · intro hnd
    have hsorted : List.Pairwise jobKeyLe (fireOrder s now) :=
      List.sorted_insertionSort jobKeyLe (dueList s now)
    have h1 : ((dueList s now).map (fun p => p.1)).Nodup :=
      List.Nodup.sublist
        (List.Sublist.map _ (List.filter_sublist s.jobs)) hnd
    have h2 : ((fireOrder s now).map (fun p => p.1)).Nodup :=
      (((List.perm_insertionSort jobKeyLe (dueList s now)).map
        (fun p => p.1)).nodup_iff).mpr h1
    have h3 : (fireOrder s now).Pairwise (fun a b => a.1 ≠ b.1) :=
      List.pairwise_map.mp h2
    refine (hsorted.and h3).imp ?_
    rintro a b ⟨hk, hne⟩
    rcases hk with hlt | ⟨heq, hle⟩
    · exact Or.inl hlt
    · exact Or.inr ⟨heq, by omega⟩

/-- Witness for C2: two jobs both due at 5 fire in the same wake, in
JobId-ascending order `[0, 1]`. -/
theorem claim_C2_witness :
    ((fireDue ⟨[(0, ⟨5, []⟩), (1, ⟨5, [8]⟩)], 2⟩ 5).2 = [0, 1]) ∧
    (fireOrder ⟨[(0, ⟨5, []⟩), (1, ⟨5, [8]⟩)], 2⟩ 5).Pairwise (fun a b =>
      a.2.next < b.2.next ∨ (a.2.next = b.2.next ∧ a.1 < b.1)) ∧
    (0 ∈ (fireDue ⟨[(0, ⟨5, []⟩), (1, ⟨5, [8]⟩)], 2⟩ 5).2 ↔
      ∃ e, (0, e) ∈ (⟨[(0, ⟨5, []⟩), (1, ⟨5, [8]⟩)], 2⟩ : SchedState).jobs ∧
        e.next ≤ 5) :=
  ⟨by decide,
   (claim_C2_fire_order ⟨[(0, ⟨5, []⟩), (1, ⟨5, [8]⟩)], 2⟩ 5).2.1 (by decide),
   (claim_C2_fire_order ⟨[(0, ⟨5, []⟩), (1, ⟨5, [8]⟩)], 2⟩ 5).1 0⟩

/-- C1: in every iteration of the service loop the wait deadline is the
minimum cached next-due time over all jobs in the set — the deadline is
indefinite (`none`, a never-resolving timer branch) exactly when the job
set is empty, and when it is `some d` then `d` is attained by some job
and is a lower bound of every job's cached next-due time. -/
theorem claim_C1_deadline_is_min (s : SchedState) :
    (deadline s = none ↔ s.jobs = []) ∧
    ∀ d, deadline s = some d →
      (∃ p ∈ s.jobs, p.2.next = d) ∧ ∀ p ∈ s.jobs, d ≤ p.2.next := by
  constructor
  · rw [deadline, listMin_eq_none]
    exact List.map_eq_nil_iff
  · intro d hd
    rw [deadline] at hd
    refine ⟨?_, ?_⟩
    · rcases List.mem_map.mp (listMin_mem hd) with ⟨p, hp, hpe⟩
      exact ⟨p, hp, hpe⟩
    · intro p hp
      exact listMin_le hd _ (List.mem_map_of_mem _ hp)

/-- Witness for C1 at a concrete two-job state whose minimum next-due
time is 3. -/
theorem claim_C1_witness :
    (∃ p ∈ (⟨[(0, ⟨5, []⟩), (1, ⟨3, [9]⟩)], 2⟩ : SchedState).jobs,
        p.2.next = 3) ∧
    ∀ p ∈ (⟨[(0, ⟨5, []⟩), (1, ⟨3, [9]⟩)], 2⟩ : SchedState).jobs,
        3 ≤ p.2.next :=
  (claim_C1_deadline_is_min ⟨[(0, ⟨5, []⟩), (1, ⟨3, [9]⟩)], 2⟩).2 3 (by decide)

/-- C3: inserting a job whose next-due time is earlier than every
deadline the service could currently be waiting on (in particular when
the set is empty and the wait is indefinite) makes the immediately
recomputed deadline equal to the new job's next-due time — the next
timer wait uses the new, sooner deadline, not the stale one. -/
theorem claim_C3_insert_preempts (s : SchedState) (j : JobEntry)
    (h : ∀ d, deadline s = some d → j.next < d) :
    deadline (applyInsert s j).1 = some j.next := by
  have hmap : deadline (applyInsert s j).1 =
      listMin ((s.jobs.map fun p => p.2.next) ++ [j.next]) := by
    simp [deadline, applyInsert]
  rw [hmap, listMin_append]
  cases hd : listMin (s.jobs.map fun p => p.2.next) with
  | none => simp [listMin]
  | some d =>
    have hlt := h d (by rw [deadline]; exact hd)
    simp only [listMin]
    rw [min_eq_right (Nat.le_of_lt hlt)]

/-- Witness for C3: inserting a job due at 4 into a state waiting on
deadline 10 recomputes the deadline to 4. -/
theorem claim_C3_witness :
    deadline (applyInsert ⟨[(0, ⟨10, []⟩)], 1⟩ ⟨4, []⟩).1 = some 4 :=
  claim_C3_insert_preempts ⟨[(0, ⟨10, []⟩)], 1⟩ ⟨4, []⟩ (fun d hd => by
    simp [deadline, listMin] at hd
    show (4 : Nat) < d
    omega)

/-- C5: when the service observes the closed command channel (all handles
dropped, no command pending) the loop terminates at once: no further
events are observed, no callback fires from that point on, no reply is
sent, and the jobs still in the set are discarded with the final state
unchanged. -/
theorem claim_C5_closed_terminates (s : SchedState) (evs : List Event) :
    (run s (Event.closed :: evs)).halted = true ∧
    (run s (Event.closed :: evs)).fired = [] ∧
    (run s (Event.closed :: evs)).replies = [] ∧
    (run s (Event.closed :: evs)).state = s :=
  ⟨rfl, rfl, rfl, rfl⟩

/-- C8: processing `Remove(id)` never fails — the service always
continues, fires nothing, and acknowledges with the unconditional
success reply — and the job-set entry of every key other than `id` is
left unchanged. -/
theorem claim_C8_remove_idempotent (s : SchedState) (id : Nat) :
    step s (.command (.remove id)) =
      .running (applyRemove s id) [] (some .removed) ∧
    ∀ idx, idx ≠ id →
      List.lookup idx (applyRemove s id).jobs = List.lookup idx s.jobs :=
  ⟨rfl, fun _ hne => lookup_filter_ne s.jobs hne⟩

/-- Witness for C8: removing the unknown id 7 from a concrete two-job
state is acknowledged and leaves the entry of job 1 unchanged. -/
theorem claim_C8_witness :
    step (⟨[(0, ⟨1, []⟩), (1, ⟨2, []⟩)], 2⟩ : SchedState)
        (.command (.remove 7)) =
      .running (applyRemove ⟨[(0, ⟨1, []⟩), (1, ⟨2, []⟩)], 2⟩ 7) []
        (some .removed) ∧
    List.lookup 1 (applyRemove ⟨[(0, ⟨1, []⟩), (1, ⟨2, []⟩)], 2⟩ 7).jobs =
      List.lookup 1 (⟨[(0, ⟨1, []⟩), (1, ⟨2, []⟩)], 2⟩ : SchedState).jobs :=
  ⟨(claim_C8_remove_idempotent ⟨[(0, ⟨1, []⟩), (1, ⟨2, []⟩)], 2⟩ 7).1,
   (claim_C8_remove_idempotent ⟨[(0, ⟨1, []⟩), (1, ⟨2, []⟩)], 2⟩ 7).2 1
     (by decide)⟩

/-- C4: when the service processes `Remove(id)` for a previously issued
id (every issued id is below the counter), the remove is acknowledged
without firing anything, and `id` never appears among the fired JobIds
of any subsequent steps of the loop — in particular a job removed before
its first due time elapses never has its callback invoked. -/
theorem claim_C4_removed_never_fires (s : SchedState) (id : Nat)
    (evs : List Event) (h : id < s.nextId) :
    step s (.command (.remove id)) =
      .running (applyRemove s id) [] (some .removed) ∧
    id ∉ (run (applyRemove s id) evs).fired := by
  refine ⟨rfl, ?_⟩
  apply run_never_fires id evs (applyRemove s id) ?_ h
  intro hmem
  simp only [keysOf, applyRemove] at hmem
  rcases List.mem_map.mp hmem with ⟨p, hp, rfl⟩
  have := List.of_mem_filter hp
  simp at this

/-- Witness for C4: job 0, due at 5, is removed before time 5; the
subsequent timer wakes at 5 and 10 fire nothing for id 0. -/
theorem claim_C4_witness :
    step ⟨[(0, ⟨5, [10]⟩)], 1⟩ (.command (.remove 0)) =
      .running (applyRemove ⟨[(0, ⟨5, [10]⟩)], 1⟩ 0) [] (some .removed) ∧
    0 ∉ (run (applyRemove ⟨[(0, ⟨5, [10]⟩)], 1⟩ 0)
      [Event.timer 5, Event.timer 10]).fired :=
  claim_C4_removed_never_fires ⟨[(0, ⟨5, [10]⟩)], 1⟩ 0
    [Event.timer 5, Event.timer 10] (by decide)

/-- C9: starting from the launch state, the JobIds issued to Insert
commands over any run are pairwise distinct (the counter is monotone),
and every key present in the job set of the reached state is one of the
ids issued by this scheduler instance during the run. -/
theorem claim_C9_ids_issued_once (evs : List Event) :
    (insertedIds (run initState evs).replies).Nodup ∧
    ∀ k ∈ keysOf (run initState evs).state,
      k ∈ insertedIds (run initState evs).replies := by
  constructor
  · exact (run_insertedIds_pairwise evs initState).imp
      (fun hlt => Nat.ne_of_lt hlt)
  · intro k hk
    rcases run_keys_from_inserts evs initState hk with h | h
    · simp [keysOf, initState] at h
    · exact h

/-- Witness for C9: two Inserts receive the distinct ids 0 and 1, and
key 0 of the reached state was issued by the first Insert. -/
theorem claim_C9_witness :
    (insertedIds (run initState
      [Event.command (.insert ⟨3, []⟩),
       Event.command (.insert ⟨4, []⟩)]).replies).Nodup ∧
    0 ∈ insertedIds (run initState
      [Event.command (.insert ⟨3, []⟩),
       Event.command (.insert ⟨4, []⟩)]).replies :=
  ⟨(claim_C9_ids_issued_once
      [Event.command (.insert ⟨3, []⟩),
       Event.command (.insert ⟨4, []⟩)]).1,
   (claim_C9_ids_issued_once
      [Event.command (.insert ⟨3, []⟩),
       Event.command (.insert ⟨4, []⟩)]).2 0 (by decide)⟩

/-- C6: for every expression the model validates, `Job::cron` succeeds
and the constructed job's cached first due time is strictly after the
construction time `now` and agrees with the expression's semantics: it
is a matching timestamp and no earlier timestamp after `now` matches. -/
theorem claim_C6_valid_cron (s : String) (now : Nat) (e : CronExpr)
    (h : parseCron s.data = some e) :
    ∃ j u, Job.cron s now = .ok j ∧ j.next = some u ∧ now < u ∧
      timeMatches e u ∧ ∀ v, now < v → v < u → ¬ timeMatches e v := by
  obtain ⟨⟨hsne, hsbound⟩, ⟨hmne, hmbound⟩, ⟨hhne, hhbound⟩⟩ := parseCron_spec h
  obtain ⟨h0, hh0⟩ := List.exists_mem_of_ne_nil _ hhne
  obtain ⟨m0, hm0⟩ := List.exists_mem_of_ne_nil _ hmne
  obtain ⟨s0, hs0⟩ := List.exists_mem_of_ne_nil _ hsne
  have hu0mem : (now / 86400 + 1) * 86400 + (h0 * 3600 + m0 * 60 + s0) ∈
      fireCandidates e now := by
    apply List.mem_filter.mpr
    refine ⟨List.mem_append.mpr (Or.inr ?_), ?_⟩
    · simp only [fireTimesOnDay, List.mem_map]
      refine ⟨h0 * 3600 + m0 * 60 + s0, ?_, rfl⟩
      simp only [timesOfDay, List.mem_flatMap, List.mem_map]
      exact ⟨h0, hh0, m0, hm0, s0, hs0, rfl⟩
    · simp only [decide_eq_true_eq]
      omega
  have hcne : fireCandidates e now ≠ [] := by
    intro hnil
    rw [hnil] at hu0mem
    exact List.not_mem_nil _ hu0mem
  obtain ⟨u, hu⟩ := listMin_isSome hcne
  have humem := listMin_mem hu
  rcases List.mem_filter.mp humem with ⟨humem2, hult⟩
  have hnowu : now < u := by simpa using hult
  have hudecomp : ∃ d, (d = now / 86400 ∨ d = now / 86400 + 1) ∧
      ∃ hh ∈ e.hours, ∃ mm ∈ e.minutes, ∃ sc ∈ e.seconds,
        u = d * 86400 + (hh * 3600 + mm * 60 + sc) := by
    rcases List.mem_append.mp humem2 with hm | hm
    · simp only [fireTimesOnDay, List.mem_map, timesOfDay,
        List.mem_flatMap] at hm
      rcases hm with ⟨r, ⟨hh, hhm, mm, hmm, sc, hsc, rfl⟩, rfl⟩
      exact ⟨now / 86400, Or.inl rfl, hh, hhm, mm, hmm, sc, hsc, rfl⟩
    · simp only [fireTimesOnDay, List.mem_map, timesOfDay,
        List.mem_flatMap] at hm
      rcases hm with ⟨r, ⟨hh, hhm, mm, hmm, sc, hsc, rfl⟩, rfl⟩
      exact ⟨now / 86400 + 1, Or.inr rfl, hh, hhm, mm, hmm, sc, hsc, rfl⟩
  obtain ⟨d, hd, hh, hhm, mm, hmm, sc, hsc, hueq⟩ := hudecomp
  have hhlt : hh < 24 := by have := hhbound hh hhm; omega
  have hmlt : mm < 60 := by have := hmbound mm hmm; omega
  have hslt : sc < 60 := by have := hsbound sc hsc; omega
  have hcomp : u % 60 = sc ∧ u / 60 % 60 = mm ∧ u / 3600 % 24 = hh := by
    rw [hueq]
    refine ⟨?_, ?_, ?_⟩ <;> omega
  have hubound : u < (now / 86400 + 2) * 86400 := by
    rw [hueq]
    rcases hd with hd | hd <;> omega
  refine ⟨⟨e, nextFire e now⟩, u, ?_, ?_, hnowu, ?_, ?_⟩
  · simp [Job.cron, h]
  · simp only [nextFire]
    rw [hu]
  · exact ⟨hcomp.1 ▸ hsc, hcomp.2.1 ▸ hmm, hcomp.2.2 ▸ hhm⟩
  · intro v hnv hvu hmatch
    obtain ⟨hvs, hvm, hvh⟩ := hmatch
    have hvd : v / 86400 = now / 86400 ∨ v / 86400 = now / 86400 + 1 := by
      have h1 : now / 86400 ≤ v / 86400 :=
        Nat.div_le_div_right (Nat.le_of_lt hnv)
      have h2 : v < (now / 86400 + 2) * 86400 := Nat.lt_trans hvu hubound
      have h3 : v / 86400 < now / 86400 + 2 := by omega
      omega
    have hvdecomp : v = v / 86400 * 86400 +
        (v / 3600 % 24 * 3600 + v / 60 % 60 * 60 + v % 60) := by
      omega
    have hvtod : v / 3600 % 24 * 3600 + v / 60 % 60 * 60 + v % 60 ∈
        timesOfDay e := by
      simp only [timesOfDay, List.mem_flatMap, List.mem_map]
      exact ⟨_, hvh, _, hvm, _, hvs, rfl⟩
    have hvmem : v ∈ fireCandidates e now := by
      apply List.mem_filter.mpr
      refine ⟨?_, by simpa using hnv⟩
      apply List.mem_append.mpr
      rcases hvd with hvd | hvd
      · left
        simp only [fireTimesOnDay, List.mem_map]
        exact ⟨_, hvtod, by rw [← hvd]; exact hvdecomp.symm⟩
      · right
        simp only [fireTimesOnDay, List.mem_map]
        exact ⟨_, hvtod, by rw [← hvd]; exact hvdecomp.symm⟩
    have := listMin_le hu v hvmem
    omega

/-- Witness for C6 at the concrete expression "5 4 3 1 1 0" constructed
at time 0: the job exists and its first due time is 11045 = 3 h 4 min
5 s into day 0. -/
theorem claim_C6_witness :
    ∃ j u, Job.cron "5 4 3 1 1 0" 0 = .ok j ∧ j.next = some u ∧ 0 < u ∧
      timeMatches ⟨[5], [4], [3], [1], [1], [0]⟩ u ∧
      ∀ v, 0 < v → v < u →
        ¬ timeMatches ⟨[5], [4], [3], [1], [1], [0]⟩ v :=
  claim_C6_valid_cron "5 4 3 1 1 0" 0 ⟨[5], [4], [3], [1], [1], [0]⟩
    (by decide)

/-- C7: for every expression the model rejects (out-of-range fields,
wrong field count, malformed tokens), `Job::cron` returns the
`ParseError` and no job object is produced. -/
theorem claim_C7_invalid_rejected (s : String) (now : Nat)
    (h : parseCron s.data = none) :
    Job.cron s now = .error .invalidExpr := by
  simp [Job.cron, h]

/-- Witness for C7: an out-of-range seconds field and a five-field
expression are both rejected. -/
theorem claim_C7_witness :
    Job.cron "60 * * * * *" 0 = .error .invalidExpr ∧
    Job.cron "* * * * *" 0 = .error .invalidExpr :=
  ⟨claim_C7_invalid_rejected "60 * * * * *" 0 (by decide),
   claim_C7_invalid_rejected "* * * * *" 0 (by decide)⟩

/-- C10: for both built-in timezone capabilities `timescale()` returns
the canonical instance of the zone (`Self`, the unit struct value), and
deterministically so — all values of each zone type are equal, so every
call returns an equal value. -/
theorem claim_C10_timescale_canonical :
    (TimeZoneExt.timescale : Local) = Local.mk ∧
    (TimeZoneExt.timescale : Utc) = Utc.mk ∧
    (∀ a b : Local, a = b) ∧ (∀ a b : Utc, a = b) := by
  refine ⟨rfl, rfl, fun a b => ?_, fun a b => ?_⟩ <;>
    cases a <;> cases b <;> rfl

end AsyncCronScheduler
